import Mathlib

set_option maxRecDepth 8000

namespace Spec2Proof

/-!
Shallow embedding of the editor core of this repository.

Strings from the TypeScript source are modelled as `List Char` (UTF-16 code
units of the inputs at issue are plain characters); the `String` wrappers at
the API boundary convert via `String.toList` / `String.mk`.

Part 1: the Emmet-style abbreviation expander
(src/services/geminiService.ts, third section = emmetService:
`expandAbbreviation`, `parseGroup`, `parseNode`, `parseSingleNode`).
-/

def isAsciiLower (c : Char) : Bool := 'a' ≤ c && c ≤ 'z'

def isAsciiUpper (c : Char) : Bool := 'A' ≤ c && c ≤ 'Z'

def isAsciiDigit (c : Char) : Bool := '0' ≤ c && c ≤ '9'

/-- The character class of the validation regex `/^[a-z0-9#.>*\-+]+$/i`
(the `i` flag also admits `A`–`Z`). -/
def allowedEmmetChar (c : Char) : Bool :=
  isAsciiLower c || isAsciiUpper c || isAsciiDigit c ||
  c == '#' || c == '.' || c == '>' || c == '*' || c == '-' || c == '+'

/-- The character class of the `isComplex` test `/[#.>*\-+]/`. -/
def structuralEmmetChar (c : Char) : Bool :=
  c == '#' || c == '.' || c == '>' || c == '*' || c == '-' || c == '+'

/-- JavaScript `str.split(sep)` for a single-character separator:
always returns at least one (possibly empty) piece. -/
def splitOnChar (sep : Char) : List Char → List (List Char)
  | [] => [[]]
  | c :: rest =>
    match splitOnChar sep rest with
    | [] => [[]]
    | h :: t => if c == sep then [] :: h :: t else (c :: h) :: t

/-- JavaScript `\s` (whitespace class used by `trim`, `/^\s*/` and
`parseInt`'s leading-whitespace skip). -/
def isJsSpace (c : Char) : Bool :=
  c == ' ' || c == '\t' || c == '\n' || c == '\x0b' || c == '\x0c' || c == '\r' ||
  c == '\xa0' || c == '\u1680' || ('\u2000' ≤ c && c ≤ '\u200a') ||
  c == '\u2028' || c == '\u2029' || c == '\u202f' || c == '\u205f' ||
  c == '\u3000' || c == '\ufeff'

def digitsVal (l : List Char) : Nat :=
  l.foldl (fun acc c => acc * 10 + (c.toNat - '0'.toNat)) 0

/-- JavaScript `parseInt(str, 10)`: skip leading whitespace, optional sign,
then the longest digit run; `none` models `NaN`. -/
def jsParseInt (l : List Char) : Option Int :=
  let l' := l.dropWhile isJsSpace
  let sgn : Bool × List Char :=
    match l' with
    | '-' :: r => (true, r)
    | '+' :: r => (false, r)
    | r => (false, r)
  let ds := sgn.2.takeWhile isAsciiDigit
  if ds.isEmpty then none
  else if sgn.1 then some (-(digitsVal ds : Int)) else some (digitsVal ds : Int)

/-- JavaScript `str.replace('$0', '')`: a string (not regex) pattern replaces
only the first occurrence.  The pattern `"$0"` cannot overlap itself. -/
def replaceFirstDollar : List Char → List Char
  | [] => []
  | '$' :: '0' :: r => r
  | c :: rest => c :: replaceFirstDollar rest

/-- JavaScript `str.replace(/\n/g, '\n\t')` (global). -/
def indentNewlines : List Char → List Char
  | [] => []
  | c :: rest => if c = '\n' then '\n' :: '\t' :: indentNewlines rest
                 else c :: indentNewlines rest

/-- JavaScript `str.split(/([#.])/)` in the shape the consuming loop reads it:
the leading token plus the (delimiter, following-token) pairs. -/
def splitTags : List Char → List Char × List (Char × List Char)
  | [] => ([], [])
  | c :: rest =>
    let r := splitTags rest
    if c == '#' || c == '.' then ([], (c, r.1) :: r.2) else (c :: r.1, r.2)

/-- The `for (let i = 1; i < parts.length; i += 2)` loop of `parseSingleNode`:
a later `#` value overwrites `id`; `.` values are appended to `classes`. -/
def collectAttrs (ps : List (Char × List Char)) : List Char × List (List Char) :=
  ps.foldl
    (fun acc p =>
      if p.1 = '#' then (p.2, acc.2)
      else if p.1 = '.' then (acc.1, acc.2 ++ [p.2])
      else acc)
    ([], [])

def voidTags : List (List Char) :=
  ["img".toList, "input".toList, "br".toList, "hr".toList, "meta".toList, "link".toList]

/-- `parseSingleNode(str, innerContent)` of the emmet service. -/
def parseSingleNode (str innerContent : List Char) : List Char :=
  let parts := splitTags str
  let tagName := if parts.1.isEmpty then "div".toList else parts.1
  let ic := collectAttrs parts.2
  let idVal := ic.1
  let classes := ic.2
  let attributes :=
    (if idVal.isEmpty then [] else " id=\"".toList ++ idVal ++ ['"']) ++
    (if classes.isEmpty then [] else
      " class=\"".toList ++ List.intercalate [' '] classes ++ ['"'])
  if voidTags.contains tagName then
    '<' :: tagName ++ attributes ++ " />".toList
  else if innerContent.contains '\n' || innerContent.contains '<' then
    '<' :: tagName ++ attributes ++ ['>', '\n', '\t'] ++ indentNewlines innerContent ++
      "\n</".toList ++ tagName ++ ['>']
  else
    '<' :: tagName ++ attributes ++ ['>'] ++ innerContent ++ "</".toList ++ tagName ++ ['>']

/-- The `for (let i = 0; i < count; i++)` loop of `parseNode`, unrolled:
iteration 0 keeps `innerContent`, each later iteration uses
`innerContent.replace('$0', '')` (first occurrence removed). -/
def repeatNode (base innerContent : List Char) : Nat → List Char
  | 0 => []
  | Nat.succ m =>
    parseSingleNode base innerContent ++
      (List.replicate m (parseSingleNode base (replaceFirstDollar innerContent))).flatten

/-- `parseNode(str, innerContent)` of the emmet service.  A negative
`parseInt` result makes the loop run zero times, hence `Int.toNat`. -/
def parseNode (str innerContent : List Char) : List Char :=
  if str.contains '*' then
    match splitOnChar '*' str with
    | [] => []
    | base :: rest =>
      match jsParseInt (rest.headD []) with
      | none => str
      | some k => repeatNode base innerContent k.toNat
  else
    parseSingleNode str innerContent

/-- The right-to-left wrapping loop of `parseGroup`: the last part receives
the cursor marker `$0`, every earlier part wraps the accumulated content. -/
def expandParts : List (List Char) → List Char
  | [] => []
  | [p] => parseNode p ['$', '0']
  | p :: q :: ps => parseNode p (expandParts (q :: ps))

/-- `parseGroup(str)` of the emmet service. -/
def parseGroup (str : List Char) : List Char :=
  if str.contains '>' then expandParts (splitOnChar '>' str)
  else parseNode str ['$', '0']

/-- The HTML5 boilerplate template returned for the input `"!"`. -/
def htmlBoilerplate : String :=
  "<!DOCTYPE html>\n<html lang=\"en\">\n<head>\n  <meta charset=\"UTF-8\">\n  <meta name=\"viewport\" content=\"width=device-width, initial-scale=1.0\">\n  <title>Document</title>\n</head>\n<body>\n  $0\n</body>\n</html>"

/-- `expandAbbreviation(abbr)` of the emmet service.  The embedded
`parseGroup` is total, so the `try/catch` collapses to `some`. -/
def expandAbbreviation (abbr : String) : Option String :=
  if abbr = "" then none
  else if abbr = "!" then some htmlBoilerplate
  else if ¬ (abbr.toList.all allowedEmmetChar) then none
  else if ¬ (abbr.toList.any structuralEmmetChar) then none
  else some (String.mk (parseGroup abbr.toList))

/-- Count of occurrences of the cursor-marker substring `"$0"`
(the pattern cannot overlap itself, so a greedy scan counts all of them). -/
def countMarker : List Char → Nat
  | [] => 0
  | '$' :: '0' :: r => 1 + countMarker r
  | _ :: rest => countMarker rest

/-- `l` contains no `'$'` at all. -/
def noDollar (l : List Char) : Bool := l.all (fun c => c != '$')

/-- `l` contains at most one `'$'`, and if one is present it starts a `"$0"`
marker.  Every string the expander builds satisfies this. -/
def okMarker : List Char → Bool
  | [] => true
  | '$' :: '0' :: r => noDollar r
  | '$' :: _ => false
  | _ :: rest => okMarker rest

/-!
Part 2: the hand-rolled editor component (src/components/CodeEditor.tsx):
cursor geometry (`updateCursorPosition`), the Enter branch of
`handleKeyDown`, `handleToolbarInsert`, the history `useEffect` with
`onUndo`/`onRedo`, and the AI-completion generation protocol
(`handleInput` / `triggerAiSuggestion`).
-/

/-- Row (1-based, as the code computes it) and column of the caret:
`value.substring(0, selectionEnd).split('\n')`, then the number of lines and
the length of the last line. -/
def cursorRowCol (value : List Char) (offset : Nat) : Nat × Nat :=
  let lines := splitOnChar '\n' (value.take offset)
  (lines.length, (lines.getLastD []).length)

/-- The pixel position set by `updateCursorPosition`:
`top = row*21 - 21 + 20`, `left = col*charWidth + 20`. -/
def cursorXY (value : List Char) (offset : Nat) (charWidth : Nat) : Nat × Nat :=
  let rc := cursorRowCol value offset
  (rc.1 * 21 - 21 + 20, rc.2 * charWidth + 20)

/-- JavaScript `value.lastIndexOf('\n', i)`: the largest position `≤ i`
holding a newline (the source passes `selectionStart - 1`; `Nat`
subtraction clamps at `0` exactly as ECMAScript clamps the `fromIndex`). -/
def lastNlAt (l : List Char) : Nat → Option Nat
  | 0 => if l.get? 0 = some '\n' then some 0 else none
  | Nat.succ i => if l.get? (i + 1) = some '\n' then some (i + 1) else lastNlAt l i

/-- JavaScript `str.trim()`. -/
def jsTrim (l : List Char) : List Char :=
  ((l.dropWhile isJsSpace).reverse.dropWhile isJsSpace).reverse

inductive EditorLang
  | html
  | css
  | javascript
deriving DecidableEq, Repr

/-- The `e.key === 'Enter'` branch of `handleKeyDown` (no suggestion list
open): returns the new buffer and the new caret offset
(`nextCursorPosRef`). -/
def handleEnterKey (value : List Char) (selectionStart selectionEnd : Nat)
    (language : EditorLang) : List Char × Nat :=
  let lineStart := match lastNlAt value (selectionStart - 1) with
    | some i => i + 1
    | none => 0
  let textBeforeCursor := value.take selectionStart
  let currentLine := textBeforeCursor.drop lineStart
  let currentIndent := currentLine.takeWhile isJsSpace
  let charBefore := if selectionStart = 0 then none else value.get? (selectionStart - 1)
  let charAfter := value.get? selectionStart
  let ins :=
    if (charBefore = some '\x7b' ∧ charAfter = some '\x7d') ∨
       (charBefore = some '(' ∧ charAfter = some ')') ∨
       (charBefore = some '[' ∧ charAfter = some ']') then
      ('\n' :: currentIndent ++ ' ' :: ' ' :: '\n' :: currentIndent,
       currentIndent.length + 3)
    else if (charBefore = some '\x7b' ∨ charBefore = some '(' ∨
             charBefore = some '[' ∨ charBefore = some ':') ∨
            (language = EditorLang.html ∧ (jsTrim textBeforeCursor).getLast? = some '>') then
      ('\n' :: currentIndent ++ [' ', ' '], currentIndent.length + 3)
    else
      ('\n' :: currentIndent, ('\n' :: currentIndent).length)
  let newValue := value.take selectionStart ++ ins.1 ++ value.drop selectionEnd
  let newCursorPos :=
    if (charBefore = some '\x7b' ∧ charAfter = some '\x7d') ∨
       (charBefore = some '(' ∧ charAfter = some ')') then
      selectionStart + currentIndent.length + 3
    else
      selectionStart + ins.2
  (newValue, newCursorPos)

/-- `handleToolbarInsert(text)` acting on buffer `val` with the current
selection `[startPos, endPos)`: returns the new buffer and the new caret
offset. -/
def handleToolbarInsert (val : List Char) (startPos endPos : Nat) (text : List Char) :
    List Char × Nat :=
  let ins :=
    if startPos ≠ endPos then
      if text = ['"'] ∨ text = ['\''] ∨ text = ['('] ∨ text = ['\x7b'] ∨ text = ['['] then
        let sel := (val.take endPos).drop startPos
        let closing : List Char :=
          if text = ['('] then [')']
          else if text = ['\x7b'] then ['\x7d']
          else if text = ['['] then [']']
          else text
        (text ++ sel ++ closing, endPos + 2)
      else (text, startPos + text.length)
    else
      if text = ['('] ∨ text = ['\x7b'] ∨ text = ['['] then
        let closing : Char :=
          if text = ['('] then ')' else if text = ['\x7b'] then '\x7d' else ']'
        (text ++ [closing], startPos + 1)
      else if text = ['"'] ∨ text = ['\''] ∨ text = ['\x60'] then
        (text ++ text, startPos + 1)
      else (text, startPos + text.length)
  (val.take startPos ++ ins.1 ++ val.drop endPos, ins.2)

/-- The editor's history state: `historyRef.current`, `historyPointer.current`
and the currently displayed buffer (the `code` prop). -/
structure EditorHistory where
  entries : List String
  pointer : Nat
  buffer : String
deriving DecidableEq, Repr

/-- `historyRef` is initialised to `[code]` with pointer `0`. -/
def initHistory (b0 : String) : EditorHistory :=
  { entries := [b0], pointer := 0, buffer := b0 }

/-- A committed buffer change followed by the history `useEffect`: append
only when the buffer differs from `entries[pointer]`, truncating beyond the
pointer (`slice(0, pointer+1)`). -/
def histPush (s : EditorHistory) (b : String) : EditorHistory :=
  if s.entries.get? s.pointer = some b then { s with buffer := b }
  else { entries := s.entries.take (s.pointer + 1) ++ [b],
         pointer := s.pointer + 1, buffer := b }

/-- `onUndo`: when the pointer is positive, decrement it and emit
`entries[pointer]` (the emitted buffer equals the entry at the new pointer,
so the subsequent history effect is a no-op).  The `getD` default is
unreachable for states whose pointer is in range. -/
def histUndo (s : EditorHistory) : EditorHistory :=
  if s.pointer > 0 then
    { entries := s.entries, pointer := s.pointer - 1,
      buffer := s.entries.getD (s.pointer - 1) "" }
  else s

/-- `onRedo`: symmetric to `histUndo` at the top of the stack. -/
def histRedo (s : EditorHistory) : EditorHistory :=
  if s.pointer < s.entries.length - 1 then
    { entries := s.entries, pointer := s.pointer + 1,
      buffer := s.entries.getD (s.pointer + 1) "" }
  else s

def histPushSeq (s : EditorHistory) (bs : List String) : EditorHistory :=
  bs.foldl histPush s

/-- A suggestion as displayed by CodeEditor.tsx. -/
structure AiSuggestion where
  label : String
  value : String
  stype : String
  detail : String
deriving DecidableEq, Repr

/-- The component state relevant to the asynchronous completion protocol:
`activeRequestRef.current`, the textarea's `selectionStart`, the suggestion
list and the loading flag. -/
structure AiEditorState where
  activeRequest : Nat
  selectionStart : Nat
  suggestions : List AiSuggestion
  isAiLoading : Bool
deriving DecidableEq, Repr

/-- The part of `handleInput` relevant to the protocol: every input
increments `activeRequestRef`, records the caret and replaces the
suggestion list with the synchronously computed one (whose contents,
computed from the static tables, enter here as a parameter). -/
def handleInputBump (s : AiEditorState) (cursorPos : Nat)
    (newSuggestions : List AiSuggestion) : AiEditorState :=
  { s with activeRequest := s.activeRequest + 1,
           selectionStart := cursorPos,
           suggestions := newSuggestions }

/-- A caret move that does not pass through `handleInput` (mouse click,
arrow key): only the selection changes. -/
def caretMove (s : AiEditorState) (pos : Nat) : AiEditorState :=
  { s with selectionStart := pos }

/-- The synchronous head of `triggerAiSuggestion(currentVal, cursor)`:
capture `requestId = activeRequestRef.current`, abandon the launch if the
caret is no longer at `cursor`, else set the loading flag and suspend. -/
def launchAiSuggestion (s : AiEditorState) (cursor : Nat) :
    Option (Nat × AiEditorState) :=
  if s.selectionStart ≠ cursor then none
  else some (s.activeRequest, { s with isAiLoading := true })

/-- The resumption of `triggerAiSuggestion` when `completeCode` resolves
with `completion`: a stale generation returns without touching anything;
otherwise a non-blank completion becomes the single AI suggestion, and the
`finally` clause clears the loading flag. -/
def resolveAiSuggestion (s : AiEditorState) (requestId : Nat)
    (completion : String) : AiEditorState :=
  if requestId ≠ s.activeRequest then s
  else
    let s' :=
      if (jsTrim completion.toList).length > 0 then
        { s with suggestions :=
            [{ label := "AI Suggestion", value := completion,
               stype := "snippet", detail := "Gemini Auto-complete" }] }
      else s
    if requestId = s'.activeRequest then { s' with isAiLoading := false } else s'

/-!
Part 3: the suggestion ranking of the editor variant in src/unnamed/part_004
(`handleInput`, the `// Smart Sorting: Exact -> Starts With -> Alphabetical`
comparator passed to `Array.prototype.sort`).
-/

def lowerList (l : List Char) : List Char := l.map Char.toLower

/-- JavaScript `big.includes(small)`: substring containment. -/
def listIncludes (small big : List Char) : Bool := decide (small <:+: big)

/-- Sign of `a.localeCompare(b)`.  The comparator only ever calls it on
already-lowercased labels; for the lowercase alphanumeric labels at issue
the default-locale collation coincides with code-point order. -/
def lexCompare : List Char → List Char → Int
  | [], [] => 0
  | [], _ :: _ => -1
  | _ :: _, [] => 1
  | a :: as, b :: bs => if a < b then -1 else if b < a then 1 else lexCompare as bs

/-- The three-tier comparator of part_004 (lines 485-502): exact lowercase
match first, then lowercase-prefix matches, then `localeCompare` on the
lowercased labels. -/
def suggestionCompare (currentWord a b : String) : Int :=
  let curr := lowerList currentWord.toList
  let aLab := lowerList a.toList
  let bLab := lowerList b.toList
  if aLab = curr ∧ bLab ≠ curr then -1
  else if bLab = curr ∧ aLab ≠ curr then 1
  else
    let aStarts := curr.isPrefixOf aLab
    let bStarts := curr.isPrefixOf bLab
    if aStarts ∧ ¬ bStarts then -1
    else if ¬ aStarts ∧ bStarts then 1
    else lexCompare aLab bLab

/-- Stable insertion of `x` into a ranked list: `x` goes before the first
element strictly greater than it (`cmp x y < 0`), hence after all elements
equivalent to it. -/
def insertRanked (cmp : α → α → Int) (x : α) : List α → List α
  | [] => [x]
  | y :: ys => if cmp x y < 0 then x :: y :: ys else y :: insertRanked cmp x ys

/-- Stable sort by a comparator.  ECMAScript requires `Array.prototype.sort`
to be stable and, for a consistent comparator (this one induces a total
preorder), sorted; those two properties determine the output uniquely, and
left-to-right stable insertion realises them. -/
def rankSort (cmp : α → α → Int) (l : List α) : List α :=
  l.foldl (fun acc x => insertRanked cmp x acc) []

/-- The filter + sort pipeline of part_004's `handleInput` restricted to the
labels: keep labels whose lowercase form contains the lowercased current
word, then sort with the three-tier comparator. -/
def rankSuggestions (currentWord : String) (labels : List String) : List String :=
  rankSort (suggestionCompare currentWord)
    (labels.filter (fun s => listIncludes (lowerList currentWord.toList) (lowerList s.toList)))

/-! ### Helper lemmas about `splitOnChar` and `takeWhile` -/

theorem splitOnChar_cons_eq (sep c : Char) (rest : List Char) (h : List Char)
    (t : List (List Char)) (hsp : splitOnChar sep rest = h :: t) :
    splitOnChar sep (c :: rest) =
      if c = sep then [] :: h :: t else (c :: h) :: t := by
  rw [show splitOnChar sep (c :: rest) =
      (match splitOnChar sep rest with
       | [] => [[]]
       | h :: t => if c == sep then [] :: h :: t else (c :: h) :: t) from rfl, hsp]
  by_cases hc : c = sep <;> simp [hc]

theorem splitOnChar_ne_nil (sep : Char) (l : List Char) : splitOnChar sep l ≠ [] := by
  induction l with
  | nil => simp [splitOnChar]
  | cons c rest ih =>
    cases hsp : splitOnChar sep rest with
    | nil => exact absurd hsp ih
    | cons h t =>
      rw [splitOnChar_cons_eq sep c rest h t hsp]
      by_cases hc : c = sep <;> simp [hc]

theorem splitOnChar_of_not_mem (sep : Char) (l : List Char) (h : sep ∉ l) :
    splitOnChar sep l = [l] := by
  induction l with
  | nil => simp [splitOnChar]
  | cons c rest ih =>
    have hc : ¬ c = sep := fun hcc => h (hcc ▸ List.mem_cons_self c rest)
    have hrest : sep ∉ rest := fun hm => h (List.mem_cons_of_mem c hm)
    rw [splitOnChar_cons_eq sep c rest rest [] (ih hrest)]
    simp [hc]

theorem splitOnChar_append_cons (sep : Char) (a b : List Char) (h : sep ∉ a) :
    splitOnChar sep (a ++ sep :: b) = a :: splitOnChar sep b := by
  induction a with
  | nil =>
    simp only [List.nil_append]
    cases hb : splitOnChar sep b with
    | nil => exact absurd hb (splitOnChar_ne_nil sep b)
    | cons x t =>
      rw [splitOnChar_cons_eq sep sep b x t hb]
      simp [hb]
  | cons c a' ih =>
    have hc : ¬ c = sep := fun hcc => h (hcc ▸ List.mem_cons_self c a')
    have ha' : sep ∉ a' := fun hm => h (List.mem_cons_of_mem c hm)
    simp only [List.cons_append]
    rw [splitOnChar_cons_eq sep c (a' ++ sep :: b) a' (splitOnChar sep b) (ih ha')]
    simp [hc]

theorem length_splitOnChar (sep : Char) (l : List Char) :
    (splitOnChar sep l).length = l.count sep + 1 := by
  induction l with
  | nil => simp [splitOnChar]
  | cons c rest ih =>
    cases hsp : splitOnChar sep rest with
    | nil => exact absurd hsp (splitOnChar_ne_nil sep rest)
    | cons h t =>
      rw [splitOnChar_cons_eq sep c rest h t hsp]
      rw [hsp] at ih
      by_cases hc : c = sep
      · rw [if_pos hc]
        subst hc
        rw [List.count_cons_self]
        simp only [List.length_cons] at ih ⊢
        omega
      · rw [if_neg hc]
        rw [List.count_cons_of_ne (fun hx => hc hx.symm)]
        simp only [List.length_cons] at ih ⊢
        omega

theorem mem_of_mem_splitOnChar (sep : Char) (l : List Char) (p : List Char) (c : Char)
    (hp : p ∈ splitOnChar sep l) (hc : c ∈ p) : c ∈ l := by
  induction l generalizing p with
  | nil =>
    simp [splitOnChar] at hp
    subst hp
    exact absurd hc (List.not_mem_nil c)
  | cons x rest ih =>
    cases hsp : splitOnChar sep rest with
    | nil => exact absurd hsp (splitOnChar_ne_nil sep rest)
    | cons h t =>
      rw [splitOnChar_cons_eq sep x rest h t hsp] at hp
      by_cases hx : x = sep
      · rw [if_pos hx] at hp
        rcases List.mem_cons.mp hp with hp | hp
        · subst hp; exact absurd hc (List.not_mem_nil c)
        · exact List.mem_cons_of_mem x (ih p (hsp ▸ hp) hc)
      · rw [if_neg hx] at hp
        rcases List.mem_cons.mp hp with hp | hp
        · subst hp
          rcases List.mem_cons.mp hc with hcx | hch
          · exact hcx ▸ List.mem_cons_self x rest
          · exact List.mem_cons_of_mem x
              (ih h (hsp ▸ List.mem_cons_self h t) hch)
        · exact List.mem_cons_of_mem x
            (ih p (hsp ▸ List.mem_cons_of_mem h hp) hc)

theorem takeWhile_append_all (p : Char → Bool) (a b : List Char)
    (h : ∀ x ∈ a, p x = true) : (a ++ b).takeWhile p = a ++ b.takeWhile p := by
  induction a with
  | nil => simp
  | cons c a' ih =>
    have hc : p c = true := h c (List.mem_cons_self c a')
    simp only [List.cons_append, List.takeWhile_cons, hc, if_true]
    rw [ih (fun x hx => h x (List.mem_cons_of_mem c hx))]

theorem takeWhile_append_stop (p : Char → Bool) (a b : List Char)
    (h : ∃ x ∈ a, p x = false) : (a ++ b).takeWhile p = a.takeWhile p := by
  induction a with
  | nil => rcases h with ⟨x, hx, _⟩; exact absurd hx (List.not_mem_nil x)
  | cons c a' ih =>
    by_cases hc : p c = true
    · have hex : ∃ x ∈ a', p x = false := by
        rcases h with ⟨x, hx, hpx⟩
        rcases List.mem_cons.mp hx with rfl | hxa
        · rw [hc] at hpx; exact absurd hpx (by simp)
        · exact ⟨x, hxa, hpx⟩
      simp only [List.cons_append, List.takeWhile_cons, hc, if_true]
      rw [ih hex]
    · have hc' : p c = false := by revert hc; cases p c <;> simp
      simp [List.takeWhile_cons, hc']

theorem takeWhile_append_single (p : Char → Bool) (a : List Char) (x : Char)
    (hx : p x = false) : (a ++ [x]).takeWhile p = a.takeWhile p := by
  by_cases hall : ∀ y ∈ a, p y = true
  · rw [takeWhile_append_all p a [x] hall, List.takeWhile_cons, hx]
    simp [List.takeWhile_eq_self_iff.mpr hall]
  · push_neg at hall
    rcases hall with ⟨y, hy, hpy⟩
    exact takeWhile_append_stop p a [x] ⟨y, hy, by revert hpy; cases p y <;> simp⟩

theorem getLastD_splitOnChar (sep : Char) (l : List Char) (d : List Char) :
    (splitOnChar sep l).getLastD d =
      (l.reverse.takeWhile (fun c => c ≠ sep)).reverse := by
  induction l generalizing d with
  | nil => simp [splitOnChar]
  | cons c rest ih =>
    cases hsp : splitOnChar sep rest with
    | nil => exact absurd hsp (splitOnChar_ne_nil sep rest)
    | cons h t =>
      rw [splitOnChar_cons_eq sep c rest h t hsp, List.reverse_cons]
      by_cases hc : c = sep
      · subst hc
        rw [if_pos rfl, List.getLastD_cons]
        have ihr := ih []
        rw [hsp] at ihr
        rw [takeWhile_append_single _ _ _ (by simp)]
        exact ihr
      · rw [if_neg hc]
        cases t with
        | nil =>
          have hmem : sep ∉ rest := by
            intro hm
            have hlen := length_splitOnChar sep rest
            rw [hsp] at hlen
            simp only [List.length_cons, List.length_nil] at hlen
            have := List.count_pos_iff.mpr hm
            omega
          have hrest : h = rest := by
            have h2 := splitOnChar_of_not_mem sep rest hmem
            rw [hsp] at h2
            simpa using h2
          subst hrest
          simp only [List.getLastD_cons, List.getLastD_nil]
          rw [takeWhile_append_all _ _ _ (fun x hx => by
            simp only [decide_eq_true_eq, ne_eq]
            intro hxx
            exact hmem (hxx ▸ (List.mem_reverse.mp hx)))]
          simp [hc]
        | cons t0 ts =>
          have hmem : sep ∈ rest := by
            have hlen := length_splitOnChar sep rest
            rw [hsp] at hlen
            simp only [List.length_cons] at hlen
            by_contra hnm
            have : rest.count sep = 0 := List.count_eq_zero.mpr hnm
            omega
          simp only [List.getLastD_cons]
          have ihr := ih []
          rw [hsp] at ihr
          simp only [List.getLastD_cons] at ihr
          rw [takeWhile_append_stop _ _ _
            ⟨sep, List.mem_reverse.mpr hmem, by simp⟩]
          exact ihr

/-! ### C9: cursor geometry -/

/-- C9: for every buffer and offset with `0 ≤ offset ≤ buffer.length`, the
zero-based row equals the number of newlines in `buffer[0..offset)`, the
column equals the number of characters after the last newline before the
offset, the pixel position is `top = row * 21 + 20` (lineHeight 21, top
padding 20) and `left = col * charWidth + 20`; and for buffer `"ab\ncd"`
at offset 4 the result is row 1, column 1, scaled only by the supplied
char width. -/
theorem c9_cursor_geometry (value : List Char) (offset w : Nat)
    (h : offset ≤ value.length) :
    (cursorRowCol value offset).1 - 1 = (value.take offset).count '\n' ∧
    (cursorRowCol value offset).2 =
      ((value.take offset).reverse.takeWhile (fun c => c ≠ '\n')).length ∧
    cursorXY value offset w =
      ((value.take offset).count '\n' * 21 + 20,
       ((value.take offset).reverse.takeWhile (fun c => c ≠ '\n')).length * w + 20) ∧
    cursorRowCol "ab\ncd".toList 4 = (2, 1) ∧
    cursorXY "ab\ncd".toList 4 w = (1 * 21 + 20, 1 * w + 20) := by
  have hrow : (cursorRowCol value offset).1 = (value.take offset).count '\n' + 1 := by
    simp only [cursorRowCol]
    exact length_splitOnChar '\n' (value.take offset)
  have hcol : (cursorRowCol value offset).2 =
      ((value.take offset).reverse.takeWhile (fun c => c ≠ '\n')).length := by
    simp only [cursorRowCol]
    rw [getLastD_splitOnChar]
    exact List.length_reverse _
  refine ⟨by omega, hcol, ?_, by decide, ?_⟩
  · simp only [cursorXY]
    rw [hrow, hcol]
    have : (List.count '\n' (List.take offset value) + 1) * 21 - 21 + 20 =
        List.count '\n' (List.take offset value) * 21 + 20 := by omega
    rw [this]
  · have h1 : cursorRowCol "ab\ncd".toList 4 = (2, 1) := by decide
    simp only [cursorXY, h1]

/-- Witness for C9 at a concrete buffer, offset and char width. -/
theorem c9_cursor_geometry_witness :
    cursorXY "ab\ncd".toList 4 7 = (1 * 21 + 20, 1 * 7 + 20) :=
  (c9_cursor_geometry "ab\ncd".toList 4 7 (by decide)).2.2.2.2

/-! ### C3: when `expandAbbreviation` rejects -/

/-- C3 counterexample: `"a-b"` contains none of the four characters
`#`, `.`, `>`, `*`, yet `expandAbbreviation` does not return `null` — the
hyphen (like `+`) is also in the `isComplex` class `/[#.>*\-+]/`. -/
theorem c3_counterexample :
    expandAbbreviation "a-b" = some "<a-b>$0</a-b>" ∧
    (∀ c ∈ "a-b".toList, ¬ (c = '#' ∨ c = '.' ∨ c = '>' ∨ c = '*')) := by
  constructor
  · rfl
  · decide

/-- C3 amended: for every input other than `"!"`, `expandAbbreviation`
returns `null` exactly when the input is empty, fails the
allowed-character regex, or contains none of the SIX structural characters
`#`, `.`, `>`, `*`, `-`, `+`; in particular bare words `"img"` and
`"div"` yield `null`. -/
theorem c3_amended (abbr : String) (hne : abbr ≠ "!") :
    (expandAbbreviation abbr = none ↔
      (abbr = "" ∨ ¬ (abbr.toList.all allowedEmmetChar = true) ∨
       ¬ (abbr.toList.any structuralEmmetChar = true))) ∧
    expandAbbreviation "img" = none ∧
    expandAbbreviation "div" = none := by
  refine ⟨?_, by decide, by decide⟩
  unfold expandAbbreviation
  by_cases h0 : abbr = ""
  · simp [h0]
  · rw [if_neg h0, if_neg hne]
    by_cases h1 : abbr.toList.all allowedEmmetChar = true
    · rw [if_neg (by simpa using h1)]
      by_cases h2 : abbr.toList.any structuralEmmetChar = true
      · rw [if_neg (by simpa using h2)]
        apply iff_of_false (by simp)
        rintro (hc | hc | hc)
        exacts [h0 hc, hc h1, hc h2]
      · rw [if_pos (by simpa using h2)]
        exact iff_of_true rfl (Or.inr (Or.inr h2))
    · rw [if_pos (by simpa using h1)]
      exact iff_of_true rfl (Or.inr (Or.inl h1))

/-- Witness for C3 amended at the concrete bare word `"img"`. -/
theorem c3_amended_witness : expandAbbreviation "img" = none :=
  (c3_amended "img" (by decide)).2.1

/-! ### C4: suggestion ranking (part_004) -/

/-- C4 counterexample: for current word `"di"` and candidates
`["division", "div", "divX"]` the comparator sorts the lowercased labels,
so the result is NOT `["div", "divX", "division"]` as claimed
(`"division" < "divx"` lexicographically). -/
theorem c4_counterexample :
    rankSuggestions "di" ["division", "div", "divX"] ≠
      ["div", "divX", "division"] := by decide

/-- C4 amended: ranking is the three-tier comparator (exact lowercase
match, then lowercase-prefix match, then alphabetical on the LOWERCASED
labels, ties keeping original order); for current word `"di"` the ranked
order of `["division", "div", "divX"]` is `["div", "division", "divX"]`
(`"division"` before `"divX"` since comparison is case-insensitive), and
for current word `"div"` the exact match `"div"` still ranks first. -/
theorem c4_amended :
    rankSuggestions "di" ["division", "div", "divX"] =
      ["div", "division", "divX"] ∧
    rankSuggestions "div" ["division", "div", "divX"] =
      ["div", "division", "divX"] ∧
    (∀ curr a b : String,
      lowerList a.toList = lowerList curr.toList →
      lowerList b.toList ≠ lowerList curr.toList →
      suggestionCompare curr a b = -1) ∧
    (∀ curr a b : String,
      lowerList a.toList ≠ lowerList curr.toList →
      lowerList b.toList ≠ lowerList curr.toList →
      (lowerList curr.toList).isPrefixOf (lowerList a.toList) = true →
      (lowerList curr.toList).isPrefixOf (lowerList b.toList) = false →
      suggestionCompare curr a b = -1) := by
  refine ⟨by decide, by decide, ?_, ?_⟩
  · intro curr a b ha hb
    unfold suggestionCompare
    rw [if_pos ⟨ha, hb⟩]
  · intro curr a b ha hb hpa hpb
    unfold suggestionCompare
    rw [if_neg (fun hc => ha hc.1), if_neg (fun hc => hb hc.1)]
    refine if_pos ⟨hpa, ?_⟩
    rw [hpb]
    simp

/-- Witness for C4 amended: the exact-match tier at concrete labels. -/
theorem c4_amended_witness : suggestionCompare "div" "div" "division" = -1 :=
  c4_amended.2.2.1 "div" "div" "division" (by decide) (by decide)

/-! ### C5: stale-completion discard protocol -/

/-- C5 counterexample: a response IS applied even though the caret has
moved from the offset that triggered the request — request launched at
caret 3 (generation 5), the caret then moves to 7 without typing, and the
resolution still replaces the suggestion list because only the generation
is re-checked on arrival. -/
theorem c5_counterexample :
    launchAiSuggestion ⟨5, 3, [], false⟩ 3 = some (5, ⟨5, 3, [], true⟩) ∧
    (caretMove ⟨5, 3, [], true⟩ 7).selectionStart ≠ 3 ∧
    (resolveAiSuggestion (caretMove ⟨5, 3, [], true⟩ 7) 5 "x").suggestions ≠
      (caretMove ⟨5, 3, [], true⟩ 7).suggestions := by
  refine ⟨rfl, by decide, by decide⟩

/-- C5 amended: a stale response (captured generation differs from the
latest issued generation) never mutates any state; the suggestion list is
mutated by a resolution only when the captured generation equals the
current one; and in the A-then-type-then-B scenario, A's later resolution
is a complete no-op.  The caret position is checked only when the request
launches (the launch aborts if the caret moved from the scheduling
offset), not when the response arrives. -/
theorem c5_amended :
    (∀ (s : AiEditorState) (rid : Nat) (c : String),
      rid ≠ s.activeRequest → resolveAiSuggestion s rid c = s) ∧
    (∀ (s : AiEditorState) (rid : Nat) (c : String),
      (resolveAiSuggestion s rid c).suggestions ≠ s.suggestions →
      rid = s.activeRequest) ∧
    (∀ (s s1 s3 : AiEditorState) (g g2 cur pos cur2 : Nat)
       (sugs : List AiSuggestion) (c : String),
      launchAiSuggestion s cur = some (g, s1) →
      launchAiSuggestion (handleInputBump s1 pos sugs) cur2 = some (g2, s3) →
      resolveAiSuggestion s3 g c = s3) := by
  have hstale : ∀ (s : AiEditorState) (rid : Nat) (c : String),
      rid ≠ s.activeRequest → resolveAiSuggestion s rid c = s := by
    intro s rid c hne
    unfold resolveAiSuggestion
    rw [if_pos hne]
  refine ⟨hstale, ?_, ?_⟩
  · intro s rid c hmut
    by_contra hne
    exact hmut (by rw [hstale s rid c hne])
  · intro s s1 s3 g g2 cur pos cur2 sugs c hl1 hl2
    unfold launchAiSuggestion at hl1 hl2
    by_cases hc1 : s.selectionStart ≠ cur
    · rw [if_pos hc1] at hl1; exact absurd hl1 (by simp)
    · rw [if_neg hc1] at hl1
      by_cases hc2 : (handleInputBump s1 pos sugs).selectionStart ≠ cur2
      · rw [if_pos hc2] at hl2; exact absurd hl2 (by simp)
      · rw [if_neg hc2] at hl2
        have hg : g = s.activeRequest := by
          have := congrArg (fun o => (o.map Prod.fst).getD 0) hl1
          simpa using this.symm
        have hs1 : s1.activeRequest = s.activeRequest := by
          have := congrArg (fun o => ((o.map Prod.snd).map AiEditorState.activeRequest).getD 0) hl1
          simpa using this.symm
        have hs3 : s3.activeRequest = s1.activeRequest + 1 := by
          have := congrArg (fun o => ((o.map Prod.snd).map AiEditorState.activeRequest).getD 0) hl2
          simpa [handleInputBump] using this.symm
        exact hstale s3 g c (by omega)

/-- Witness for C5 amended: a concretely stale resolution is ignored. -/
theorem c5_amended_witness :
    resolveAiSuggestion ⟨5, 3, [], false⟩ 4 "x" = ⟨5, 3, [], false⟩ :=
  c5_amended.1 ⟨5, 3, [], false⟩ 4 "x" (by decide)

/-! ### C8: toolbar insertion -/

/-- C8 counterexample: with the non-empty selection `[0,3)` of `"abc"`, the
backtick is NOT wrapped around the selection (it is not in the
selection-wrap set `" ' ( \x7b [`): the selection is replaced by a single
literal backtick with the caret at 1, not `` `abc` `` with the caret at 5. -/
theorem c8_counterexample :
    handleToolbarInsert "abc".toList 0 3 "\x60".toList ≠
      ("\x60abc\x60".toList, 3 + 2) ∧
    handleToolbarInsert "abc".toList 0 3 "\x60".toList = ("\x60".toList, 0 + 1) := by
  refine ⟨by decide, by decide⟩

/-- C8 amended: with a non-empty selection, a token among `" ' ( \x7b [`
(the backtick is NOT in this set) wraps the selection with the opener and
its matching closer, caret at `end + 2`; a backtick with a non-empty
selection replaces the selection with the literal backtick, caret right
after it; with a collapsed selection an opening bracket inserts the
open+close pair and a quote (backtick included) is doubled, caret between
them at `start + 1`; any other token is inserted literally with the caret
immediately after it. -/
theorem c8_amended :
    (∀ (val : List Char) (s e : Nat) (t : List Char), s ≠ e →
      (t = ['"'] ∨ t = ['\''] ∨ t = ['('] ∨ t = ['\x7b'] ∨ t = ['[']) →
      handleToolbarInsert val s e t =
        (val.take s ++ t ++ ((val.take e).drop s) ++
          (if t = ['('] then [')'] else if t = ['\x7b'] then ['\x7d']
           else if t = ['['] then [']'] else t) ++ val.drop e,
         e + 2)) ∧
    (∀ (val : List Char) (s e : Nat), s ≠ e →
      handleToolbarInsert val s e ['\x60'] =
        (val.take s ++ ['\x60'] ++ val.drop e, s + 1)) ∧
    (∀ (val : List Char) (s : Nat) (t : List Char),
      (t = ['('] ∨ t = ['\x7b'] ∨ t = ['[']) →
      handleToolbarInsert val s s t =
        (val.take s ++ t ++
          [(if t = ['('] then ')' else if t = ['\x7b'] then '\x7d' else ']')] ++
          val.drop s,
         s + 1)) ∧
    (∀ (val : List Char) (s : Nat) (t : List Char),
      (t = ['"'] ∨ t = ['\''] ∨ t = ['\x60']) →
      handleToolbarInsert val s s t =
        (val.take s ++ t ++ t ++ val.drop s, s + 1)) ∧
    (∀ (val : List Char) (s e : Nat) (t : List Char), s ≠ e →
      ¬ (t = ['"'] ∨ t = ['\''] ∨ t = ['('] ∨ t = ['\x7b'] ∨ t = ['[']) →
      handleToolbarInsert val s e t =
        (val.take s ++ t ++ val.drop e, s + t.length)) ∧
    (∀ (val : List Char) (s : Nat) (t : List Char),
      ¬ (t = ['('] ∨ t = ['\x7b'] ∨ t = ['[']) →
      ¬ (t = ['"'] ∨ t = ['\''] ∨ t = ['\x60']) →
      handleToolbarInsert val s s t =
        (val.take s ++ t ++ val.drop s, s + t.length)) := by
  refine ⟨?_, ?_, ?_, ?_, ?_, ?_⟩
  · intro val s e t hse ht
    unfold handleToolbarInsert
    rw [if_pos hse, if_pos ht]
    simp only [List.append_assoc]
  · intro val s e hse
    unfold handleToolbarInsert
    rw [if_pos hse, if_neg (by decide)]
    simp
  · intro val s t ht
    unfold handleToolbarInsert
    rw [if_neg (by omega), if_pos ht]
    rcases ht with rfl | rfl | rfl <;> simp
  · intro val s t ht
    unfold handleToolbarInsert
    rw [if_neg (by omega), if_neg ?hq, if_pos ht]
    · simp [List.append_assoc]
    case hq => rcases ht with rfl | rfl | rfl <;> decide
  · intro val s e t hse ht
    unfold handleToolbarInsert
    rw [if_pos hse, if_neg ht]
  · intro val s t h1 h2
    unfold handleToolbarInsert
    rw [if_neg (by omega), if_neg h1, if_neg h2]

/-- Witness for C8 amended: wrapping a concrete selection in parentheses. -/
theorem c8_amended_witness :
    handleToolbarInsert "abc".toList 0 3 "(".toList =
      ("(abc)".toList, 3 + 2) := by
  have h := c8_amended.1 "abc".toList 0 3 "(".toList (by decide)
    (Or.inr (Or.inr (Or.inl rfl)))
  rw [h]
  rfl

/-! ### C1: `ul>li*3`, nesting and repetition -/

theorem parseGroup_eq_expandParts (s : List Char) :
    parseGroup s = expandParts (splitOnChar '>' s) := by
  unfold parseGroup
  by_cases hm : '>' ∈ s
  · rw [if_pos (List.elem_eq_true_of_mem hm)]
  · rw [if_neg (fun hc => hm (List.mem_of_elem_eq_true hc))]
    rw [splitOnChar_of_not_mem '>' s hm]
    rfl

/-- C1: `expandAbbreviation("ul>li*3")` yields a `<ul>` whose inner markup
is exactly three concatenated `<li>` elements of which only the first
carries `$0` (the wrapper pretty-prints with one tab because the inner
content contains `<`); in general a `>`-split nests right-to-left with the
innermost part receiving the marker, and `*N` concatenates `N` copies of
the node with the marker stripped (`replace('$0','')`) from every copy
after the first. -/
theorem c1_ul_li3 :
    expandAbbreviation "ul>li*3" =
      some (String.mk ("<ul>".toList ++ "\n\t".toList ++
        ("<li>$0</li>".toList ++ "<li></li>".toList ++ "<li></li>".toList) ++
        "\n".toList ++ "</ul>".toList)) ∧
    (∀ a b : List Char, '>' ∉ a →
      parseGroup (a ++ '>' :: b) = parseNode a (parseGroup b)) ∧
    (∀ (base c inner : List Char) (m : Nat), '*' ∉ base → '*' ∉ c →
      jsParseInt c = some (Int.ofNat (m + 1)) →
      parseNode (base ++ '*' :: c) inner =
        parseSingleNode base inner ++
          (List.replicate m (parseSingleNode base (replaceFirstDollar inner))).flatten) := by
  refine ⟨by decide, ?_, ?_⟩
  · intro a b ha
    rw [parseGroup_eq_expandParts, parseGroup_eq_expandParts,
      splitOnChar_append_cons '>' a b ha]
    cases hb : splitOnChar '>' b with
    | nil => exact absurd hb (splitOnChar_ne_nil '>' b)
    | cons h t => rfl
  · intro base c inner m hb hc hpi
    unfold parseNode
    rw [if_pos (List.elem_eq_true_of_mem (List.mem_append_right base (List.mem_cons_self '*' c)))]
    rw [splitOnChar_append_cons '*' base c hb, splitOnChar_of_not_mem '*' c hc]
    simp only [List.headD_cons]
    rw [hpi]
    rfl

/-- Witness for C1: the nesting and repetition conjuncts at the concrete
parts of `"ul>li*3"`. -/
theorem c1_ul_li3_witness :
    parseGroup ("ul".toList ++ '>' :: "li*3".toList) =
      parseNode "ul".toList (parseGroup "li*3".toList) ∧
    parseNode ("li".toList ++ '*' :: "3".toList) ['$', '0'] =
      parseSingleNode "li".toList ['$', '0'] ++
        (List.replicate 2 (parseSingleNode "li".toList
          (replaceFirstDollar ['$', '0']))).flatten :=
  ⟨c1_ul_li3.2.1 "ul".toList "li*3".toList (by decide),
   c1_ul_li3.2.2 "li".toList "3".toList ['$', '0'] 2 (by decide) (by decide) (by decide)⟩

/-! ### C2: single-node syntax `tag#id.class1.class2` -/

theorem splitTags_cons_hash (l : List Char) :
    splitTags ('#' :: l) = ([], ('#', (splitTags l).1) :: (splitTags l).2) := by
  simp [splitTags]

theorem splitTags_cons_dot (l : List Char) :
    splitTags ('.' :: l) = ([], ('.', (splitTags l).1) :: (splitTags l).2) := by
  simp [splitTags]

theorem splitTags_append_token (t l : List Char)
    (h : ∀ c ∈ t, ¬ (c = '#' ∨ c = '.')) :
    splitTags (t ++ l) = (t ++ (splitTags l).1, (splitTags l).2) := by
  induction t with
  | nil => simp
  | cons c t' ih =>
    have hc := h c (List.mem_cons_self c t')
    have hch : ¬ (c == '#' || c == '.') = true := by
      simp only [Bool.or_eq_true, beq_iff_eq]
      exact hc
    simp only [List.cons_append, splitTags, if_neg hch]
    rw [show t'.append l = t' ++ l from rfl,
      ih (fun x hx => h x (List.mem_cons_of_mem c hx))]

theorem splitTags_token (t : List Char) (h : ∀ c ∈ t, ¬ (c = '#' ∨ c = '.')) :
    splitTags t = (t, []) := by
  have h2 := splitTags_append_token t [] h
  simp only [List.append_nil] at h2
  rw [h2]
  simp [splitTags]

theorem intercalate_pair (a b : List Char) :
    List.intercalate [' '] [a, b] = a ++ ' ' :: b := by
  simp [List.intercalate, List.intersperse]

/-- C2: `expandAbbreviation("div.card#main")` is exactly
`<div id="main" class="card">$0</div>`; in general, for a node
`tag#id.class1.class2` (and likewise `tag.class#id`, showing the emission
order is fixed) the tag defaults to `div` when omitted, `id` takes the
value after `#`, `class` joins the `.`-tokens with single spaces, and the
`id` attribute is emitted before the `class` attribute regardless of their
order in the abbreviation. -/
theorem c2_div_card_main :
    expandAbbreviation "div.card#main" =
      some "<div id=\"main\" class=\"card\">$0</div>" ∧
    (∀ tag idv c1 c2 : List Char,
      (∀ c ∈ tag, ¬ (c = '#' ∨ c = '.')) →
      (∀ c ∈ idv, ¬ (c = '#' ∨ c = '.')) →
      (∀ c ∈ c1, ¬ (c = '#' ∨ c = '.')) →
      (∀ c ∈ c2, ¬ (c = '#' ∨ c = '.')) →
      idv ≠ [] →
      voidTags.contains (if tag = [] then "div".toList else tag) = false →
      parseSingleNode (tag ++ ('#' :: (idv ++ ('.' :: (c1 ++ ('.' :: c2)))))) ['$', '0'] =
        '<' :: ((if tag = [] then "div".toList else tag) ++
          ((" id=\"".toList ++ idv ++ ['"']) ++
           (" class=\"".toList ++ (c1 ++ ' ' :: c2) ++ ['"'])) ++
          ['>'] ++ ['$', '0'] ++ "</".toList ++
          (if tag = [] then "div".toList else tag) ++ ['>'])) ∧
    (∀ tag cls idv : List Char,
      (∀ c ∈ tag, ¬ (c = '#' ∨ c = '.')) →
      (∀ c ∈ cls, ¬ (c = '#' ∨ c = '.')) →
      (∀ c ∈ idv, ¬ (c = '#' ∨ c = '.')) →
      idv ≠ [] →
      voidTags.contains (if tag = [] then "div".toList else tag) = false →
      parseSingleNode (tag ++ ('.' :: (cls ++ ('#' :: idv)))) ['$', '0'] =
        '<' :: ((if tag = [] then "div".toList else tag) ++
          ((" id=\"".toList ++ idv ++ ['"']) ++
           (" class=\"".toList ++ cls ++ ['"'])) ++
          ['>'] ++ ['$', '0'] ++ "</".toList ++
          (if tag = [] then "div".toList else tag) ++ ['>'])) := by
  refine ⟨by decide, ?_, ?_⟩
  · intro tag idv c1 c2 htag hid hc1 hc2 hidne hvoid
    have hsp : splitTags (tag ++ ('#' :: (idv ++ ('.' :: (c1 ++ ('.' :: c2)))))) =
        (tag, [('#', idv), ('.', c1), ('.', c2)]) := by
      rw [splitTags_append_token tag _ htag, splitTags_cons_hash,
        splitTags_append_token idv _ hid, splitTags_cons_dot,
        splitTags_append_token c1 _ hc1, splitTags_cons_dot,
        splitTags_token c2 hc2]
      simp
    have hca : collectAttrs [('#', idv), ('.', c1), ('.', c2)] = (idv, [c1, c2]) := rfl
    have hie : idv.isEmpty = false := by
      cases idv with
      | nil => exact absurd rfl hidne
      | cons x xs => rfl
    have htg : (if tag.isEmpty = true then "div".toList else tag) =
        (if tag = [] then "div".toList else tag) := by
      by_cases ht : tag = [] <;> simp [ht]
    unfold parseSingleNode
    rw [hsp]
    dsimp only
    rw [hca]
    dsimp only
    rw [hie]
    rw [htg, hvoid]
    simp only [Bool.false_eq_true, if_false, List.isEmpty_cons]
    rw [if_neg (by decide)]
    rw [intercalate_pair]
    simp [List.append_assoc]
  · intro tag cls idv htag hcls hid hidne hvoid
    have hsp : splitTags (tag ++ ('.' :: (cls ++ ('#' :: idv)))) =
        (tag, [('.', cls), ('#', idv)]) := by
      rw [splitTags_append_token tag _ htag, splitTags_cons_dot,
        splitTags_append_token cls _ hcls, splitTags_cons_hash,
        splitTags_token idv hid]
      simp
    have hca : collectAttrs [('.', cls), ('#', idv)] = (idv, [cls]) := rfl
    have hie : idv.isEmpty = false := by
      cases idv with
      | nil => exact absurd rfl hidne
      | cons x xs => rfl
    have htg : (if tag.isEmpty = true then "div".toList else tag) =
        (if tag = [] then "div".toList else tag) := by
      by_cases ht : tag = [] <;> simp [ht]
    have hint : List.intercalate [' '] [cls] = cls := by
      simp [List.intercalate, List.intersperse]
    unfold parseSingleNode
    rw [hsp]
    dsimp only
    rw [hca]
    dsimp only
    rw [hie]
    rw [htg, hvoid]
    simp only [Bool.false_eq_true, if_false, List.isEmpty_cons]
    rw [if_neg (by decide)]
    rw [hint]
    simp [List.append_assoc]

/-- Witness for C2 at the concrete node `"div.card#main"` parts. -/
theorem c2_div_card_main_witness :
    parseSingleNode ("div".toList ++ ('.' :: ("card".toList ++ ('#' :: "main".toList))))
        ['$', '0'] =
      '<' :: ((if ("div".toList : List Char) = [] then "div".toList else "div".toList) ++
        ((" id=\"".toList ++ "main".toList ++ ['"']) ++
         (" class=\"".toList ++ "card".toList ++ ['"'])) ++
        ['>'] ++ ['$', '0'] ++ "</".toList ++
        (if ("div".toList : List Char) = [] then "div".toList else "div".toList) ++ ['>']) :=
  c2_div_card_main.2.2 "div".toList "card".toList "main".toList
    (by decide) (by decide) (by decide) (by decide) (by decide)

/-! ### C10: the single-cursor-marker invariant -/

theorem countMarker_cons_of (c : Char) (rest : List Char)
    (h : ¬ (c = '$' ∧ ∃ r : List Char, rest = '0' :: r)) :
    countMarker (c :: rest) = countMarker rest := by
  rw [countMarker.eq_def]
  split
  · rename_i heq
    exact absurd heq (by simp)
  · rename_i x r heq
    injection heq with h1 h2
    exact absurd ⟨h1, r, h2⟩ h
  · rename_i x1 c2 rest2 hx heq
    injection heq with h1 h2
    rw [h2]

theorem okMarker_cons_of (c : Char) (rest : List Char) (hc : c ≠ '$') :
    okMarker (c :: rest) = okMarker rest := by
  rw [okMarker.eq_def]
  split
  · rename_i heq
    exact absurd heq (by simp)
  · rename_i x r heq
    injection heq with h1 h2
    exact absurd h1 hc
  · rename_i x tl hx heq
    injection heq with h1 h2
    exact absurd h1 hc
  · rename_i x hd tl hx1 hx2 heq
    injection heq with h1 h2
    rw [h2]

theorem replaceFirstDollar_cons_of (c : Char) (rest : List Char)
    (h : ¬ (c = '$' ∧ ∃ r : List Char, rest = '0' :: r)) :
    replaceFirstDollar (c :: rest) = c :: replaceFirstDollar rest := by
  rw [replaceFirstDollar.eq_def]
  split
  · rename_i heq
    exact absurd heq (by simp)
  · rename_i x r heq
    injection heq with h1 h2
    exact absurd ⟨h1, r, h2⟩ h
  · rename_i x1 c2 rest2 hx heq
    injection heq with h1 h2
    rw [h1, h2]

theorem okMarker_dollar_of (tl : List Char) (h : ∀ r : List Char, tl ≠ '0' :: r) :
    okMarker ('$' :: tl) = false := by
  rw [okMarker.eq_def]
  split
  · rename_i heq
    exact absurd heq (by simp)
  · rename_i x r heq
    injection heq with h1 h2
    exact absurd h2 (h r)
  · rfl
  · rename_i x hd tlx hx1 hx2 heq
    injection heq with h1 h2
    exact absurd h1.symm hx2

theorem noDollar_cons_iff (c : Char) (l : List Char) :
    noDollar (c :: l) = true ↔ c ≠ '$' ∧ noDollar l = true := by
  simp [noDollar]

theorem noDollar_append_iff (a b : List Char) :
    noDollar (a ++ b) = true ↔ noDollar a = true ∧ noDollar b = true := by
  simp [noDollar]

theorem okMarker_of_noDollar (l : List Char) (h : noDollar l = true) :
    okMarker l = true := by
  induction l with
  | nil => rfl
  | cons c rest ih =>
    rcases (noDollar_cons_iff c rest).mp h with ⟨hc, hrest⟩
    rw [okMarker_cons_of c rest hc]
    exact ih hrest

theorem countMarker_of_noDollar (l : List Char) (h : noDollar l = true) :
    countMarker l = 0 := by
  induction l with
  | nil => rfl
  | cons c rest ih =>
    rcases (noDollar_cons_iff c rest).mp h with ⟨hc, hrest⟩
    rw [countMarker_cons_of c rest (fun hcc => hc hcc.1)]
    exact ih hrest

theorem countMarker_le_one_of_okMarker (l : List Char) (h : okMarker l = true) :
    countMarker l ≤ 1 := by
  induction l using countMarker.induct with
  | case1 => simp [countMarker]
  | case2 r ih =>
    have hr : noDollar r = true := h
    rw [show countMarker ('$' :: '0' :: r) = 1 + countMarker r from rfl,
      countMarker_of_noDollar r hr]
  | case3 c rest hx ih =>
    by_cases hc : c = '$'
    · subst hc
      have : ∀ r : List Char, rest ≠ '0' :: r := fun r hr => hx r rfl hr
      rw [okMarker_dollar_of rest this] at h
      exact absurd h (by simp)
    · rw [countMarker_cons_of c rest (fun hcc => hc hcc.1)]
      rw [okMarker_cons_of c rest hc] at h
      exact ih h

theorem noDollar_replaceFirstDollar (l : List Char) (h : okMarker l = true) :
    noDollar (replaceFirstDollar l) = true := by
  induction l using replaceFirstDollar.induct with
  | case1 => rfl
  | case2 r =>
    have hr : noDollar r = true := h
    exact hr
  | case3 c rest hx ih =>
    by_cases hc : c = '$'
    · subst hc
      have : ∀ r : List Char, rest ≠ '0' :: r := fun r hr => hx r rfl hr
      rw [okMarker_dollar_of rest this] at h
      exact absurd h (by simp)
    · rw [replaceFirstDollar_cons_of c rest (fun hcc => hc hcc.1)]
      rw [okMarker_cons_of c rest hc] at h
      exact (noDollar_cons_iff c _).mpr ⟨hc, ih h⟩

theorem okMarker_append_noDollar (a b : List Char) (ha : okMarker a = true)
    (hb : noDollar b = true) : okMarker (a ++ b) = true := by
  induction a using okMarker.induct with
  | case1 => exact okMarker_of_noDollar b hb
  | case2 r =>
    have hr : noDollar r = true := ha
    show okMarker ('$' :: '0' :: (r ++ b)) = true
    show noDollar (r ++ b) = true
    exact (noDollar_append_iff r b).mpr ⟨hr, hb⟩
  | case3 tl hx =>
    rw [okMarker_dollar_of tl (fun r hr => hx r hr)] at ha
    exact absurd ha (by simp)
  | case4 c rest hx1 hx2 ih =>
    have hc : c ≠ '$' := fun hcc => hx2 hcc
    rw [List.cons_append, okMarker_cons_of c (rest ++ b) hc]
    rw [okMarker_cons_of c rest hc] at ha
    exact ih ha

theorem noDollar_append_okMarker (a b : List Char) (ha : noDollar a = true)
    (hb : okMarker b = true) : okMarker (a ++ b) = true := by
  induction a with
  | nil => exact hb
  | cons c rest ih =>
    rcases (noDollar_cons_iff c rest).mp ha with ⟨hc, hrest⟩
    rw [List.cons_append, okMarker_cons_of c (rest ++ b) hc]
    exact ih hrest

theorem noDollar_indentNewlines (l : List Char) (h : noDollar l = true) :
    noDollar (indentNewlines l) = true := by
  induction l with
  | nil => rfl
  | cons c rest ih =>
    rcases (noDollar_cons_iff c rest).mp h with ⟨hc, hrest⟩
    by_cases hn : c = '\n'
    · subst hn
      simp only [indentNewlines, if_pos rfl]
      exact (noDollar_cons_iff _ _).mpr ⟨by decide, (noDollar_cons_iff _ _).mpr
        ⟨by decide, ih hrest⟩⟩
    · simp only [indentNewlines, if_neg hn]
      exact (noDollar_cons_iff _ _).mpr ⟨hc, ih hrest⟩

theorem okMarker_indentNewlines (l : List Char) (h : okMarker l = true) :
    okMarker (indentNewlines l) = true := by
  induction l using okMarker.induct with
  | case1 => rfl
  | case2 r =>
    have hr : noDollar r = true := h
    show okMarker (indentNewlines ('$' :: '0' :: r)) = true
    have : indentNewlines ('$' :: '0' :: r) = '$' :: '0' :: indentNewlines r := by
      simp [indentNewlines]
    rw [this]
    show noDollar (indentNewlines r) = true
    exact noDollar_indentNewlines r hr
  | case3 tl hx =>
    rw [okMarker_dollar_of tl (fun r hr => hx r hr)] at h
    exact absurd h (by simp)
  | case4 c rest hx1 hx2 ih =>
    have hc : c ≠ '$' := fun hcc => hx2 hcc
    rw [okMarker_cons_of c rest hc] at h
    by_cases hn : c = '\n'
    · subst hn
      rw [show indentNewlines ('\n' :: rest) = '\n' :: '\t' :: indentNewlines rest from by
        simp [indentNewlines]]
      rw [okMarker_cons_of '\n' _ (by decide), okMarker_cons_of '\t' _ (by decide)]
      exact ih h
    · simp only [indentNewlines, if_neg hn]
      rw [okMarker_cons_of c _ hc]
      exact ih h

theorem not_dollar_of_allowedEmmetChar (c : Char) (h : allowedEmmetChar c = true) :
    c ≠ '$' := by
  intro hc
  subst hc
  exact absurd h (by decide)

theorem splitTags_subset (l : List Char) :
    (∀ c ∈ (splitTags l).1, c ∈ l) ∧
    (∀ p ∈ (splitTags l).2, ∀ c ∈ p.2, c ∈ l) := by
  induction l with
  | nil =>
    exact ⟨fun c hc => absurd hc (List.not_mem_nil c),
      fun p hp => absurd hp (List.not_mem_nil p)⟩
  | cons x rest ih =>
    by_cases hx : (x == '#' || x == '.') = true
    · constructor
      · intro c hc
        rw [show splitTags (x :: rest) =
            ([], (x, (splitTags rest).1) :: (splitTags rest).2) from by
          simp [splitTags, hx]] at hc
        exact absurd hc (List.not_mem_nil c)
      · intro p hp c hc
        rw [show splitTags (x :: rest) =
            ([], (x, (splitTags rest).1) :: (splitTags rest).2) from by
          simp [splitTags, hx]] at hp
        rcases List.mem_cons.mp hp with rfl | hp2
        · exact List.mem_cons_of_mem x (ih.1 c hc)
        · exact List.mem_cons_of_mem x (ih.2 p hp2 c hc)
    · constructor
      · intro c hc
        rw [show splitTags (x :: rest) =
            (x :: (splitTags rest).1, (splitTags rest).2) from by
          simp [splitTags, hx]] at hc
        rcases List.mem_cons.mp hc with rfl | hc2
        · exact List.mem_cons_self c rest
        · exact List.mem_cons_of_mem x (ih.1 c hc2)
      · intro p hp c hc
        rw [show splitTags (x :: rest) =
            (x :: (splitTags rest).1, (splitTags rest).2) from by
          simp [splitTags, hx]] at hp
        exact List.mem_cons_of_mem x (ih.2 p hp c hc)

theorem collectAttrs_noDollar (ps : List (Char × List Char))
    (h : ∀ p ∈ ps, noDollar p.2 = true) :
    noDollar (collectAttrs ps).1 = true ∧
    ∀ v ∈ (collectAttrs ps).2, noDollar v = true := by
  have main : ∀ (acc : List Char × List (List Char)),
      noDollar acc.1 = true → (∀ v ∈ acc.2, noDollar v = true) →
      noDollar (ps.foldl (fun acc p =>
        if p.1 = '#' then (p.2, acc.2)
        else if p.1 = '.' then (acc.1, acc.2 ++ [p.2])
        else acc) acc).1 = true ∧
      ∀ v ∈ (ps.foldl (fun acc p =>
        if p.1 = '#' then (p.2, acc.2)
        else if p.1 = '.' then (acc.1, acc.2 ++ [p.2])
        else acc) acc).2, noDollar v = true := by
    induction ps with
    | nil => intro acc h1 h2; exact ⟨h1, h2⟩
    | cons p ps' ih =>
      intro acc h1 h2
      have hp := h p (List.mem_cons_self p ps')
      have hps' : ∀ q ∈ ps', noDollar q.2 = true :=
        fun q hq => h q (List.mem_cons_of_mem p hq)
      simp only [List.foldl_cons]
      by_cases hp1 : p.1 = '#'
      · rw [if_pos hp1]
        exact (fun ih' => ih' hp h2) (fun ha hb => ih hps' (p.2, acc.2) ha hb)
      · rw [if_neg hp1]
        by_cases hp2 : p.1 = '.'
        · rw [if_pos hp2]
          refine ih hps' (acc.1, acc.2 ++ [p.2]) h1 ?_
          intro v hv
          rcases List.mem_append.mp hv with hv | hv
          · exact h2 v hv
          · rw [List.mem_singleton.mp hv]
            exact hp
        · rw [if_neg hp2]
          exact ih hps' acc h1 h2
  exact main ([], []) rfl (fun v hv => absurd hv (List.not_mem_nil v))

theorem noDollar_intercalate (vs : List (List Char))
    (h : ∀ v ∈ vs, noDollar v = true) :
    noDollar (List.intercalate [' '] vs) = true := by
  have : ∀ x ∈ (vs.intersperse [' ']), noDollar x = true := by
    intro x hx
    induction vs with
    | nil => simp [List.intersperse] at hx
    | cons v vs' ih =>
      cases vs' with
      | nil =>
        simp [List.intersperse] at hx
        rw [hx]
        exact h v (List.mem_cons_self v [])
      | cons w ws =>
        rw [List.intersperse_cons_cons] at hx
        rcases List.mem_cons.mp hx with rfl | hx2
        · exact h x (List.mem_cons_self x _)
        · rcases List.mem_cons.mp hx2 with rfl | hx3
          · decide
          · exact ih (fun q hq => h q (List.mem_cons_of_mem v hq)) hx3
  rw [List.intercalate]
  simp only [noDollar, List.all_eq_true] at this ⊢
  intro c hc
  rcases List.mem_flatten.mp hc with ⟨x, hx, hcx⟩
  exact this x hx c hcx

theorem noDollar_iff (l : List Char) : noDollar l = true ↔ ∀ c ∈ l, c ≠ '$' := by
  simp [noDollar]

theorem parseSingleNode_components (str : List Char) (hstr : noDollar str = true) :
    noDollar (if (splitTags str).1.isEmpty = true then "div".toList
      else (splitTags str).1) = true ∧
    noDollar ((if (collectAttrs (splitTags str).2).1.isEmpty = true then []
        else " id=\"".toList ++ (collectAttrs (splitTags str).2).1 ++ ['"']) ++
      (if (collectAttrs (splitTags str).2).2.isEmpty = true then []
        else " class=\"".toList ++
          List.intercalate [' '] (collectAttrs (splitTags str).2).2 ++ ['"'])) = true := by
  have hfst : noDollar (splitTags str).1 = true :=
    (noDollar_iff _).mpr fun c hc =>
      (noDollar_iff str).mp hstr c ((splitTags_subset str).1 c hc)
  have hsnd : ∀ p ∈ (splitTags str).2, noDollar p.2 = true := by
    intro p hp
    exact (noDollar_iff _).mpr fun c hc =>
      (noDollar_iff str).mp hstr c ((splitTags_subset str).2 p hp c hc)
  have hca := collectAttrs_noDollar (splitTags str).2 hsnd
  constructor
  · by_cases he : (splitTags str).1.isEmpty = true
    · rw [if_pos he]; decide
    · rw [if_neg he]; exact hfst
  · rw [noDollar_append_iff]
    constructor
    · by_cases he : (collectAttrs (splitTags str).2).1.isEmpty = true
      · rw [if_pos he]; rfl
      · rw [if_neg he]
        rw [noDollar_append_iff, noDollar_append_iff]
        exact ⟨⟨by decide, hca.1⟩, by decide⟩
    · by_cases he : (collectAttrs (splitTags str).2).2.isEmpty = true
      · rw [if_pos he]; rfl
      · rw [if_neg he]
        rw [noDollar_append_iff, noDollar_append_iff]
        exact ⟨⟨by decide, noDollar_intercalate _ hca.2⟩, by decide⟩

theorem parseSingleNode_noDollar (str inner : List Char)
    (hstr : noDollar str = true) (hin : noDollar inner = true) :
    noDollar (parseSingleNode str inner) = true := by
  obtain ⟨htag, hattr⟩ := parseSingleNode_components str hstr
  unfold parseSingleNode
  dsimp only
  set tg := (if (splitTags str).1.isEmpty = true then "div".toList
    else (splitTags str).1) with htg
  set attrs := ((if (collectAttrs (splitTags str).2).1.isEmpty = true then []
      else " id=\"".toList ++ (collectAttrs (splitTags str).2).1 ++ ['"']) ++
    (if (collectAttrs (splitTags str).2).2.isEmpty = true then []
      else " class=\"".toList ++
        List.intercalate [' '] (collectAttrs (splitTags str).2).2 ++ ['"'])) with hat
  have hcons : noDollar ('<' :: tg) = true :=
    (noDollar_cons_iff _ _).mpr ⟨by decide, htag⟩
  split
  · simp only [noDollar_append_iff]
    exact ⟨⟨hcons, hattr⟩, by decide⟩
  · split
    · simp only [noDollar_append_iff]
      exact ⟨⟨⟨⟨⟨⟨hcons, hattr⟩, by decide⟩,
        noDollar_indentNewlines inner hin⟩, by decide⟩, htag⟩, by decide⟩
    · simp only [noDollar_append_iff]
      exact ⟨⟨⟨⟨⟨⟨hcons, hattr⟩, by decide⟩, hin⟩, by decide⟩, htag⟩, by decide⟩

theorem parseSingleNode_okMarker (str inner : List Char)
    (hstr : noDollar str = true) (hin : okMarker inner = true) :
    okMarker (parseSingleNode str inner) = true := by
  obtain ⟨htag, hattr⟩ := parseSingleNode_components str hstr
  unfold parseSingleNode
  dsimp only
  set tg := (if (splitTags str).1.isEmpty = true then "div".toList
    else (splitTags str).1) with htg
  set attrs := ((if (collectAttrs (splitTags str).2).1.isEmpty = true then []
      else " id=\"".toList ++ (collectAttrs (splitTags str).2).1 ++ ['"']) ++
    (if (collectAttrs (splitTags str).2).2.isEmpty = true then []
      else " class=\"".toList ++
        List.intercalate [' '] (collectAttrs (splitTags str).2).2 ++ ['"'])) with hat
  have hcons : noDollar ('<' :: tg) = true :=
    (noDollar_cons_iff _ _).mpr ⟨by decide, htag⟩
  split
  · apply okMarker_of_noDollar
    simp only [noDollar_append_iff]
    exact ⟨⟨hcons, hattr⟩, by decide⟩
  · split
    · refine okMarker_append_noDollar _ _ ?_ (by decide)
      refine okMarker_append_noDollar _ _ ?_ htag
      refine okMarker_append_noDollar _ _ ?_ (by decide)
      refine noDollar_append_okMarker _ _ ?_ (okMarker_indentNewlines inner hin)
      simp only [noDollar_append_iff]
      exact ⟨⟨hcons, hattr⟩, by decide⟩
    · refine okMarker_append_noDollar _ _ ?_ (by decide)
      refine okMarker_append_noDollar _ _ ?_ htag
      refine okMarker_append_noDollar _ _ ?_ (by decide)
      refine noDollar_append_okMarker _ _ ?_ hin
      simp only [noDollar_append_iff]
      exact ⟨⟨hcons, hattr⟩, by decide⟩

theorem noDollar_flatten (L : List (List Char)) (h : ∀ x ∈ L, noDollar x = true) :
    noDollar L.flatten = true := by
  rw [noDollar_iff]
  intro c hc
  rcases List.mem_flatten.mp hc with ⟨x, hx, hcx⟩
  exact (noDollar_iff x).mp (h x hx) c hcx

theorem repeatNode_okMarker (base inner : List Char) (n : Nat)
    (hb : noDollar base = true) (hin : okMarker inner = true) :
    okMarker (repeatNode base inner n) = true := by
  cases n with
  | zero => rfl
  | succ m =>
    unfold repeatNode
    apply okMarker_append_noDollar
    · exact parseSingleNode_okMarker base inner hb hin
    · apply noDollar_flatten
      intro x hx
      rw [List.eq_of_mem_replicate hx]
      exact parseSingleNode_noDollar base _ hb
        (noDollar_replaceFirstDollar inner hin)

theorem parseNode_okMarker (str inner : List Char)
    (hstr : noDollar str = true) (hin : okMarker inner = true) :
    okMarker (parseNode str inner) = true := by
  unfold parseNode
  split
  · cases hsp : splitOnChar '*' str with
    | nil => rfl
    | cons base rest =>
      have hbase : noDollar base = true :=
        (noDollar_iff base).mpr fun c hc =>
          (noDollar_iff str).mp hstr c
            (mem_of_mem_splitOnChar '*' str base c
              (hsp ▸ List.mem_cons_self base rest) hc)
      have hcount : noDollar (rest.headD []) = true := by
        cases rest with
        | nil => rfl
        | cons r0 rs =>
          exact (noDollar_iff r0).mpr fun c hc =>
            (noDollar_iff str).mp hstr c
              (mem_of_mem_splitOnChar '*' str r0 c
                (hsp ▸ List.mem_cons_of_mem base (List.mem_cons_self r0 rs)) hc)
      dsimp only
      cases hpi : jsParseInt (rest.headD []) with
      | none => exact okMarker_of_noDollar str hstr
      | some k => exact repeatNode_okMarker base inner k.toNat hbase hin
  · exact parseSingleNode_okMarker str inner hstr hin

theorem expandParts_okMarker (parts : List (List Char))
    (h : ∀ p ∈ parts, noDollar p = true) :
    okMarker (expandParts parts) = true := by
  induction parts using expandParts.induct with
  | case1 => rfl
  | case2 p =>
    exact parseNode_okMarker p ['$', '0'] (h p (List.mem_cons_self p [])) rfl
  | case3 p q ps ih =>
    exact parseNode_okMarker p _ (h p (List.mem_cons_self p _))
      (ih fun x hx => h x (List.mem_cons_of_mem p hx))

theorem parseGroup_okMarker (s : List Char) (hs : noDollar s = true) :
    okMarker (parseGroup s) = true := by
  rw [parseGroup_eq_expandParts]
  apply expandParts_okMarker
  intro p hp
  exact (noDollar_iff p).mpr fun c hc =>
    (noDollar_iff s).mp hs c (mem_of_mem_splitOnChar '>' s p c hp hc)

/-- C10: whenever `expandAbbreviation` returns a result, that result
contains at most one occurrence of the cursor-marker substring `"$0"`; the
`"!"` boilerplate contains exactly one. -/
theorem c10_single_marker :
    (∀ (abbr r : String), expandAbbreviation abbr = some r →
      countMarker r.toList ≤ 1) ∧
    countMarker htmlBoilerplate.toList = 1 := by
  refine ⟨?_, by decide⟩
  intro abbr r h
  unfold expandAbbreviation at h
  split_ifs at h with h1 h2 h3 h4
  · have hh : htmlBoilerplate = r := Option.some.inj h
    subst hh
    decide
  · have hh : String.mk (parseGroup abbr.toList) = r := Option.some.inj h
    subst hh
    have hnd : noDollar abbr.toList = true := by
      rw [noDollar_iff]
      intro c hc
      exact not_dollar_of_allowedEmmetChar c
        (by
          have := List.all_eq_true.mp h3 c hc
          simpa using this)
    exact countMarker_le_one_of_okMarker _ (parseGroup_okMarker abbr.toList hnd)

/-- Witness for C10 at the concrete abbreviation `"ul>li*3"`. -/
theorem c10_single_marker_witness :
    countMarker ("<ul>\n\t<li>$0</li><li></li><li></li>\n</ul>" : String).toList ≤ 1 :=
  c10_single_marker.1 "ul>li*3" "<ul>\n\t<li>$0</li><li></li><li></li>\n</ul>" (by decide)

/-! ### C6: Enter between a matching empty bracket pair -/

theorem lastNlAt_none (l : List Char) (i : Nat)
    (h : ∀ j, j ≤ i → l.get? j ≠ some '\n') : lastNlAt l i = none := by
  induction i with
  | zero =>
    unfold lastNlAt
    rw [if_neg (h 0 le_rfl)]
  | succ i ih =>
    unfold lastNlAt
    rw [if_neg (h (i + 1) le_rfl)]
    exact ih (fun j hj => h j (le_trans hj (Nat.le_succ i)))

theorem lastNlAt_some (l : List Char) (i k : Nat)
    (hk : l.get? k = some '\n') (hki : k ≤ i)
    (h : ∀ j, k < j → j ≤ i → l.get? j ≠ some '\n') : lastNlAt l i = some k := by
  induction i with
  | zero =>
    have hk0 : k = 0 := Nat.le_zero.mp hki
    subst hk0
    unfold lastNlAt
    rw [if_pos hk]
  | succ i ih =>
    unfold lastNlAt
    by_cases hke : k = i + 1
    · subst hke
      rw [if_pos hk]
    · have hki' : k ≤ i := by omega
      rw [if_neg (h (i + 1) (by omega) le_rfl)]
      exact ih hki' (fun j hj1 hj2 => h j hj1 (by omega))

/-- C6: pressing Enter with a collapsed caret between a matching empty
bracket pair (of `\x7b\x7d`, `()`, `[]`) on a line whose leading-whitespace
indent is `ind` inserts `'\n' + ind + "  " + '\n' + ind` and leaves the
caret on the indented middle line at offset `start + ind.length + 3`. -/
theorem c6_enter_bracket_pair (pre ind rest post : List Char)
    (bopen bclose : Char) (lang : EditorLang)
    (hpair : (bopen = '\x7b' ∧ bclose = '\x7d') ∨
             (bopen = '(' ∧ bclose = ')') ∨ (bopen = '[' ∧ bclose = ']'))
    (hpre : pre = [] ∨ pre.getLast? = some '\n')
    (hind : ∀ c ∈ ind, c = ' ' ∨ c = '\t')
    (hrestnl : '\n' ∉ rest)
    (hresthead : ∀ c, rest.head? = some c → isJsSpace c = false) :
    handleEnterKey (pre ++ ind ++ rest ++ bopen :: bclose :: post)
        ((pre ++ ind ++ rest).length + 1) ((pre ++ ind ++ rest).length + 1) lang =
      ((pre ++ ind ++ rest ++ [bopen]) ++
        ('\n' :: ind ++ ' ' :: ' ' :: '\n' :: ind) ++ bclose :: post,
       (pre ++ ind ++ rest).length + 1 + ind.length + 3) := by
  set A := pre ++ ind ++ rest with hA
  set value := A ++ bopen :: bclose :: post with hv
  have hbnn : bopen ≠ '\n' := by
    rcases hpair with ⟨rfl, _⟩ | ⟨rfl, _⟩ | ⟨rfl, _⟩ <;> decide
  have hb : value.get? A.length = some bopen := by
    rw [List.get?_eq_getElem?, hv, List.getElem?_append_right (le_refl A.length)]
    simp
  have hc : value.get? (A.length + 1) = some bclose := by
    rw [List.get?_eq_getElem?, hv, List.getElem?_append_right (by omega)]
    have h1 : A.length + 1 - A.length = 1 := by omega
    rw [h1]
    simp
  have hvala : value = (A ++ [bopen]) ++ bclose :: post := by
    rw [hv]
    simp
  have htake : value.take (A.length + 1) = A ++ [bopen] := by
    rw [hvala]
    exact List.take_left' (by simp)
  have hdrop : value.drop (A.length + 1) = bclose :: post := by
    rw [hvala]
    exact List.drop_left' (by simp)
  have hmidnl : ∀ c ∈ ind ++ (rest ++ [bopen]), c ≠ '\n' := by
    intro c hcm
    rcases List.mem_append.mp hcm with hm | hm
    · rcases hind c hm with rfl | rfl <;> decide
    · rcases List.mem_append.mp hm with hm | hm
      · exact fun hh => hrestnl (hh ▸ hm)
      · rw [List.mem_singleton.mp hm]
        exact hbnn
  have hv3 : value = pre ++ ((ind ++ (rest ++ [bopen])) ++ bclose :: post) := by
    rw [hv, hA]
    simp
  have hmlen : (ind ++ (rest ++ [bopen])).length = ind.length + rest.length + 1 := by
    simp only [List.length_append, List.length_cons, List.length_nil]
    omega
  have hnlmid : ∀ j, pre.length ≤ j → j ≤ A.length → value.get? j ≠ some '\n' := by
    intro j h1 h2 hcontra
    rw [List.get?_eq_getElem?, hv3, List.getElem?_append_right h1,
      List.getElem?_append_left (by
        rw [hmlen]
        have hAl : A.length = pre.length + ind.length + rest.length := by
          rw [hA]
          simp only [List.length_append]
        omega)] at hcontra
    have hmem := List.get?_mem (List.get?_eq_getElem? _ _ ▸ hcontra)
    exact hmidnl '\n' hmem rfl
  have hls : (match lastNlAt value (A.length + 1 - 1) with
      | some i => i + 1
      | none => 0) = pre.length := by
    have hs1 : A.length + 1 - 1 = A.length := by omega
    rw [hs1]
    rcases hpre with hpe | hplast
    · rw [lastNlAt_none value A.length (fun j hj => by
        refine hnlmid j ?_ hj
        rw [hpe]
        exact Nat.zero_le j)]
      rw [hpe]
      rfl
    · have hpne : pre ≠ [] := by
        intro hcc
        rw [hcc] at hplast
        exact absurd hplast (by simp)
      have hppos : 0 < pre.length := List.length_pos.mpr hpne
      have hk : value.get? (pre.length - 1) = some '\n' := by
        rw [List.get?_eq_getElem?, hv3, List.getElem?_append_left (by omega)]
        rw [← List.getLast?_eq_getElem?]
        exact hplast
      have hAlen : A.length = pre.length + ind.length + rest.length := by
        rw [hA]
        simp only [List.length_append]
      rw [lastNlAt_some value A.length (pre.length - 1) hk (by omega)
        (fun j hj1 hj2 => hnlmid j (by omega) hj2)]
      show pre.length - 1 + 1 = pre.length
      omega
  have hcl : (A ++ [bopen]).drop pre.length = ind ++ (rest ++ [bopen]) := by
    have : A ++ [bopen] = pre ++ (ind ++ (rest ++ [bopen])) := by
      rw [hA]; simp
    rw [this]
    exact List.drop_left' rfl
  have hci : (ind ++ (rest ++ [bopen])).takeWhile isJsSpace = ind := by
    rw [takeWhile_append_all _ _ _ (fun c hcm => by
      rcases hind c hcm with rfl | rfl <;> decide)]
    have hrb : (rest ++ [bopen]).takeWhile isJsSpace = [] := by
      cases rest with
      | nil =>
        simp only [List.nil_append, List.takeWhile_cons]
        rw [show isJsSpace bopen = false from by
          rcases hpair with ⟨rfl, _⟩ | ⟨rfl, _⟩ | ⟨rfl, _⟩ <;> decide]
        rfl
      | cons r0 rs =>
        simp only [List.cons_append, List.takeWhile_cons]
        rw [hresthead r0 rfl]
        rfl
    rw [hrb, List.append_nil]
  unfold handleEnterKey
  simp only [hls, htake, hdrop]
  rw [hcl, hci]
  rw [if_neg (by omega : ¬ A.length + 1 = 0)]
  have hs1 : A.length + 1 - 1 = A.length := by omega
  rw [hs1, hb, hc]
  rcases hpair with ⟨rfl, rfl⟩ | ⟨rfl, rfl⟩ | ⟨rfl, rfl⟩ <;>
    simp [List.append_assoc] <;> omega

/-- Witness for C6: Enter between `\x7b\x7d` at one indent level
(two spaces) in the buffer `"  \x7b\x7d"` with the caret at offset 3. -/
theorem c6_enter_bracket_pair_witness :
    handleEnterKey "  \x7b\x7d".toList 3 3 EditorLang.css =
      ("  \x7b\n    \n  \x7d".toList, 8) := by
  have h := c6_enter_bracket_pair [] [' ', ' '] [] [] '\x7b' '\x7d' EditorLang.css
    (Or.inl ⟨rfl, rfl⟩) (Or.inl rfl)
    (by decide)
    (by simp)
    (fun c hc => by simp at hc)
  simpa using h

/-! ### C7: history round-trip -/

theorem histPush_append (es : List String) (b last : String)
    (hne : last ≠ b) (hlast : es.getLast? = some last) :
    histPush ⟨es, es.length - 1, last⟩ b =
      ⟨es ++ [b], (es ++ [b]).length - 1, b⟩ := by
  have hne' : es ≠ [] := by
    intro hc
    rw [hc] at hlast
    exact absurd hlast (by simp)
  have hget : es.get? (es.length - 1) = some last := by
    rw [List.get?_eq_getElem?, ← List.getLast?_eq_getElem?]
    exact hlast
  unfold histPush
  rw [hget]
  rw [if_neg (by
    intro hc
    exact hne (Option.some.inj hc))]
  have hlp : 0 < es.length := List.length_pos.mpr hne'
  have h1 : es.length - 1 + 1 = es.length := by omega
  rw [h1, List.take_length]
  have h2 : (es ++ [b]).length - 1 = es.length := by simp
  rw [h2]

theorem getD_last_eq (b0 : String) (bs : List String) :
    (b0 :: bs).getD bs.length "" = bs.getLastD b0 := by
  induction bs generalizing b0 with
  | nil => rfl
  | cons b bs' ih =>
    rw [List.getLastD_cons]
    exact ih b

theorem histPushSeq_clean (bs : List String) : ∀ (es : List String) (last : String),
    es.getLast? = some last → List.Chain' (· ≠ ·) (last :: bs) →
    histPushSeq ⟨es, es.length - 1, last⟩ bs =
      ⟨es ++ bs, (es ++ bs).length - 1, bs.getLastD last⟩ := by
  induction bs with
  | nil =>
    intro es last h1 h2
    simp [histPushSeq]
  | cons b bs' ih =>
    intro es last h1 h2
    have hne : last ≠ b := (List.chain'_cons.mp h2).1
    have hch : List.Chain' (· ≠ ·) (b :: bs') := (List.chain'_cons.mp h2).2
    show histPushSeq (histPush ⟨es, es.length - 1, last⟩ b) bs' = _
    rw [histPush_append es b last hne h1]
    rw [ih (es ++ [b]) b (by simp) hch]
    rw [List.append_assoc]
    simp only [List.singleton_append, List.getLastD_cons]

theorem histUndo_clean (es : List String) (p : Nat) :
    histUndo ⟨es, p, es.getD p ""⟩ = ⟨es, p - 1, es.getD (p - 1) ""⟩ := by
  unfold histUndo
  by_cases h : p > 0
  · rw [if_pos h]
  · rw [if_neg h]
    have h0 : p = 0 := by omega
    subst h0
    rfl

theorem histUndo_iter (es : List String) (p k : Nat) :
    histUndo^[k] ⟨es, p, es.getD p ""⟩ = ⟨es, p - k, es.getD (p - k) ""⟩ := by
  induction k generalizing p with
  | zero => rfl
  | succ k ih =>
    rw [Function.iterate_succ_apply, histUndo_clean, ih]
    have h1 : p - 1 - k = p - (k + 1) := by omega
    rw [h1]

theorem histRedo_clean (es : List String) (p : Nat) (hp : p + 1 < es.length) :
    histRedo ⟨es, p, es.getD p ""⟩ = ⟨es, p + 1, es.getD (p + 1) ""⟩ := by
  unfold histRedo
  rw [if_pos (by dsimp only; omega)]

theorem histRedo_top (es : List String) (p : Nat) (b : String)
    (hp : ¬ p < es.length - 1) : histRedo ⟨es, p, b⟩ = ⟨es, p, b⟩ := by
  unfold histRedo
  rw [if_neg hp]

theorem histRedo_iter (es : List String) (p j : Nat) (hj : p + j ≤ es.length - 1) :
    histRedo^[j] ⟨es, p, es.getD p ""⟩ = ⟨es, p + j, es.getD (p + j) ""⟩ := by
  induction j generalizing p with
  | zero => rfl
  | succ j ih =>
    rw [Function.iterate_succ_apply, histRedo_clean es p (by omega), ih p.succ (by omega)]
    have h1 : p + 1 + j = p + (j + 1) := by omega
    rw [h1]

/-- C7: pushing pairwise-distinct buffers `b0, b1, ..., bn` in order leaves
`entries = [b0, ..., bn]` with the pointer at `n`; `k ≤ n` undos show
`b(n-k)` with the pointer at `n-k` (so successive undos yield
`b(n-1), ..., b0`), any further undo is a no-op leaving `b0`; `j ≤ n`
redos from the bottom replay to `bj` (so successive redos replay forward
to `bn`), any further redo is a no-op, and `n` redos restore the original
state; redo at the top entry is a no-op. -/
theorem c7_history_round_trip (b0 : String) (bs : List String)
    (hpw : (b0 :: bs).Pairwise (· ≠ ·)) :
    (histPushSeq (initHistory b0) bs).entries = b0 :: bs ∧
    (histPushSeq (initHistory b0) bs).pointer = bs.length ∧
    (histPushSeq (initHistory b0) bs).buffer = (b0 :: bs).getD bs.length "" ∧
    (∀ k, k ≤ bs.length →
      (histUndo^[k] (histPushSeq (initHistory b0) bs)).buffer =
        (b0 :: bs).getD (bs.length - k) "" ∧
      (histUndo^[k] (histPushSeq (initHistory b0) bs)).pointer = bs.length - k) ∧
    (∀ k, bs.length ≤ k →
      histUndo^[k] (histPushSeq (initHistory b0) bs) =
        histUndo^[bs.length] (histPushSeq (initHistory b0) bs)) ∧
    (histUndo^[bs.length] (histPushSeq (initHistory b0) bs)).buffer = b0 ∧
    (∀ j, j ≤ bs.length →
      (histRedo^[j] (histUndo^[bs.length] (histPushSeq (initHistory b0) bs))).buffer =
        (b0 :: bs).getD j "" ∧
      (histRedo^[j] (histUndo^[bs.length] (histPushSeq (initHistory b0) bs))).pointer = j) ∧
    (∀ j, bs.length ≤ j →
      histRedo^[j] (histUndo^[bs.length] (histPushSeq (initHistory b0) bs)) =
        histRedo^[bs.length] (histUndo^[bs.length] (histPushSeq (initHistory b0) bs))) ∧
    histRedo^[bs.length] (histUndo^[bs.length] (histPushSeq (initHistory b0) bs)) =
      histPushSeq (initHistory b0) bs ∧
    histRedo (histPushSeq (initHistory b0) bs) = histPushSeq (initHistory b0) bs := by
  have hch : List.Chain' (· ≠ ·) (b0 :: bs) := hpw.chain'
  have hlen1 : (b0 :: bs).length - 1 = bs.length := by simp
  have hs : histPushSeq (initHistory b0) bs =
      ⟨b0 :: bs, bs.length, (b0 :: bs).getD bs.length ""⟩ := by
    have h0 := histPushSeq_clean bs [b0] b0 (by simp) hch
    rw [show initHistory b0 = (⟨[b0], [b0].length - 1, b0⟩ : EditorHistory) from rfl, h0]
    simp only [List.singleton_append, hlen1]
    rw [getD_last_eq]
  have hbot : histUndo^[bs.length]
      (⟨b0 :: bs, bs.length, (b0 :: bs).getD bs.length ""⟩ : EditorHistory) =
      ⟨b0 :: bs, 0, (b0 :: bs).getD 0 ""⟩ := by
    rw [histUndo_iter]
    simp
  have hfixu : histUndo (⟨b0 :: bs, 0, (b0 :: bs).getD 0 ""⟩ : EditorHistory) =
      ⟨b0 :: bs, 0, (b0 :: bs).getD 0 ""⟩ := by
    rw [histUndo_clean]
  have htop : histRedo^[bs.length]
      (⟨b0 :: bs, 0, (b0 :: bs).getD 0 ""⟩ : EditorHistory) =
      ⟨b0 :: bs, bs.length, (b0 :: bs).getD bs.length ""⟩ := by
    have h := histRedo_iter (b0 :: bs) 0 bs.length (by omega)
    simpa using h
  have hfixr : histRedo
      (⟨b0 :: bs, bs.length, (b0 :: bs).getD bs.length ""⟩ : EditorHistory) =
      ⟨b0 :: bs, bs.length, (b0 :: bs).getD bs.length ""⟩ :=
    histRedo_top (b0 :: bs) bs.length _ (by omega)
  rw [hs]
  refine ⟨rfl, rfl, rfl, ?_, ?_, ?_, ?_, ?_, ?_, ?_⟩
  · intro k hk
    rw [histUndo_iter]
    exact ⟨rfl, rfl⟩
  · intro k hk
    rw [show k = (k - bs.length) + bs.length from by omega,
      Function.iterate_add_apply, hbot,
      Function.iterate_fixed hfixu]
  · rw [hbot]
    rfl
  · intro j hj
    rw [hbot]
    have h := histRedo_iter (b0 :: bs) 0 j (by omega)
    simp only [Nat.zero_add] at h
    rw [h]
    exact ⟨rfl, rfl⟩
  · intro j hj
    rw [hbot,
      show j = (j - bs.length) + bs.length from by omega,
      Function.iterate_add_apply, htop,
      Function.iterate_fixed hfixr]
  · rw [hbot, htop]
  · exact hfixr

/-- Witness for C7: pushing `"a", "b", "c"`, two undos walk back through
`"b"` to `"a"`, and two redos restore the original state. -/
theorem c7_history_round_trip_witness :
    (histUndo^[1] (histPushSeq (initHistory "a") ["b", "c"])).buffer = "b" ∧
    (histUndo^[2] (histPushSeq (initHistory "a") ["b", "c"])).buffer = "a" ∧
    histRedo^[2] (histUndo^[2] (histPushSeq (initHistory "a") ["b", "c"])) =
      histPushSeq (initHistory "a") ["b", "c"] := by
  have h := c7_history_round_trip "a" ["b", "c"] (by decide)
  refine ⟨?_, ?_, ?_⟩
  · have h1 := (h.2.2.2.1 1 (by simp)).1
    simpa using h1
  · have h2 := (h.2.2.2.1 2 (by simp)).1
    simpa using h2
  · exact h.2.2.2.2.2.2.2.2.1
